import Mathlib

/-!
Verification of the FEDOT evolutionary-optimizer core against its
natural-language specification.

The Python sources are shallowly embedded as Lean functions:
* `random_selection`, `tournament_selection`, `individuals_selection`
  (file `fedot/core/optimisers/gp_comp/operators/selection.py`),
* `spea2_selection` and its helpers (`_randomized_select`,
  `_randomized_partition`, `_partition`) from the same file,
* `InitialPopulationGenerator.__call__`
  (file `fedot/core/optimisers/initial_graphs_generator.py`),
* `Pipeline.root_node` (file `fedot/core/pipelines/pipeline.py`),
* a spec-modelled evaluation cache (the objective-evaluator module is not
  among the embedded sources).

Randomness (`random.choice`, `random.randint`) is modelled by an explicit
stream of naturals, and `while` loops whose termination is not syntactic are
modelled with explicit fuel returning `Option` (`none` = the loop is still
running after `fuel` iterations).  Python floats are modelled by `ℚ`.
-/

namespace Fedot

/-- An individual as used by the selection operators: a stable unique id
(`uid`) and a totally ordered fitness (`max(..., key=lambda ind: ind.fitness)`
in the source).  Fitness is modelled by `ℚ`. -/
structure Ind where
  uid : ℕ
  fitness : ℚ
deriving DecidableEq, Repr

instance : Inhabited Ind := ⟨⟨0, 0⟩⟩

/-- `random.choice(l)` for a nonempty list `l`, fed by one draw `r` from the
random stream: an arbitrary element of the list, here the one at index
`r % l.length`. -/
def pyChoice (l : List Ind) (r : ℕ) : Ind :=
  l.getD (r % l.length) default

/-- Python's `max(group, key=...)`: the first element of the list whose key is
maximal (`max` scans left to right and replaces the current best only on a
strictly greater key).  `none` models the `ValueError` that `max` raises on an
empty sequence. -/
def pyMax (l : List Ind) : Option Ind :=
  match l with
  | [] => none
  | x :: xs => some (xs.foldl (fun best y => if best.fitness < y.fitness then y else best) x)

/-- Loop of `random_selection(individuals, pop_size)`
(`selection.py`, lines 81-92).  State: accumulated `chosen`, the loop counter
`n_iter` (declared in the source and tested by the guard but never
incremented by the loop body), and the position `t` in the random stream.
Returns `some (chosen, t)` when the `while` loop exits, `none` when `fuel`
iterations did not suffice. -/
def random_selection_aux (individuals : List Ind) (pop_size : ℕ) (rand : ℕ → ℕ)
    (fuel : ℕ) (chosen : List Ind) (n_iter t : ℕ) : Option (List Ind × ℕ) :=
  if chosen.length < pop_size ∧ n_iter < pop_size * 10 then
    match fuel with
    | 0 => none
    | fuel + 1 =>
      if individuals = [] then some ([], t)
      else if individuals.length ≤ 1 then
        some (List.replicate pop_size (individuals.headD default), t)
      else
        let individual := pyChoice individuals (rand t)
        let chosen' :=
          if individual.uid ∈ chosen.map Ind.uid then chosen else chosen ++ [individual]
        random_selection_aux individuals pop_size rand fuel chosen' n_iter (t + 1)
  else some (chosen, t)

/-- `random_selection(individuals, pop_size)` (`selection.py`, lines 81-92),
started from an empty `chosen` and `n_iter = 0`, reading the random stream
from position `t`. -/
def random_selection (individuals : List Ind) (pop_size : ℕ) (rand : ℕ → ℕ)
    (fuel : ℕ) (t : ℕ) : Option (List Ind × ℕ) :=
  random_selection_aux individuals pop_size rand fuel [] 0 t

/-- The tournament group size computed by `tournament_selection`
(`selection.py`, lines 64-67):
`group_size = math.ceil(len(individuals) * fraction)`;
`min_group_size = 2 if len(individuals) > 1 else 1`;
`group_size = max(group_size, min_group_size)`. -/
def tournament_group_size (n : ℕ) (fraction : ℚ) : ℤ :=
  max ⌈(n : ℚ) * fraction⌉ (if 1 < n then 2 else 1)

/-- Outer loop of `tournament_selection` (`selection.py`, lines 71-76).
`k` counts the remaining iterations of the `while` guard
`n_iter < pop_size * 10` (the source increments `n_iter` each iteration, so
the outer loop runs at most `pop_size * 10` times); `fuel` bounds each inner
`random_selection` call.  `none` models divergence of the inner call (or the
`ValueError` of `max` on an empty group). -/
def tournament_aux (individuals : List Ind) (pop_size group_size : ℕ) (rand : ℕ → ℕ)
    (fuel : ℕ) : ℕ → List Ind → ℕ → Option (List Ind)
  | 0, chosen, _ => some chosen
  | k + 1, chosen, t =>
    if chosen.length < pop_size then
      match random_selection individuals group_size rand fuel t with
      | none => none
      | some (group, t') =>
        match pyMax group with
        | none => none
        | some best =>
          let chosen' :=
            if best.uid ∈ chosen.map Ind.uid then chosen else chosen ++ [best]
          tournament_aux individuals pop_size group_size rand fuel k chosen' t'
    else some chosen

/-- `tournament_selection(individuals, pop_size, fraction)`
(`selection.py`, lines 64-78). -/
def tournament_selection (individuals : List Ind) (pop_size : ℕ) (fraction : ℚ)
    (rand : ℕ → ℕ) (fuel : ℕ) : Option (List Ind) :=
  tournament_aux individuals pop_size
    (tournament_group_size individuals.length fraction).toNat rand fuel
    (pop_size * 10) [] 0

/-! ### Helper lemmas about the selection embedding -/

lemma pyChoice_pair_uid (a b : Ind) (h : b.uid = a.uid) (r : ℕ) :
    (pyChoice [a, b] r).uid = a.uid := by
  unfold pyChoice
  rcases Nat.mod_two_eq_zero_or_one r with h2 | h2 <;>
    simp [show ([a, b] : List Ind).length = 2 from rfl, h2, h]

lemma random_selection_aux_stuck (a b : Ind) (hab : b.uid = a.uid) (rand : ℕ → ℕ) :
    ∀ (fuel : ℕ) (chosen : List Ind) (n_iter t : ℕ),
      chosen.length ≤ 1 → n_iter < 2 * 10 → (∀ x ∈ chosen, x.uid = a.uid) →
      random_selection_aux [a, b] 2 rand fuel chosen n_iter t = none := by
  intro fuel
  induction fuel with
  | zero =>
    intro chosen n_iter t hlen hn _
    rw [random_selection_aux]
    rw [if_pos (show chosen.length < 2 ∧ n_iter < 2 * 10 from ⟨by omega, hn⟩)]
  | succ f ih =>
    intro chosen n_iter t hlen hn hx
    rw [random_selection_aux]
    simp only [if_pos (show chosen.length < 2 ∧ n_iter < 2 * 10 from ⟨by omega, hn⟩)]
    have hne : ([a, b] : List Ind) ≠ [] := by simp
    have hlen2 : ¬ ([a, b] : List Ind).length ≤ 1 := by simp
    simp only [if_neg hne, if_neg hlen2]
    have huid : (pyChoice [a, b] (rand t)).uid = a.uid := pyChoice_pair_uid a b hab (rand t)
    by_cases hmem : (pyChoice [a, b] (rand t)).uid ∈ chosen.map Ind.uid
    · simp only [if_pos hmem]
      exact ih chosen n_iter (t + 1) hlen hn hx
    · simp only [if_neg hmem]
      match chosen, hlen with
      | [], _ =>
        exact ih [pyChoice [a, b] (rand t)] n_iter (t + 1) (by simp) hn
          (by intro x hxm; simp at hxm; rw [hxm]; exact huid)
      | [c], _ =>
        have hc : (pyChoice [a, b] (rand t)).uid ∈ ([c].map Ind.uid) := by
          simp only [List.map_cons, List.map_nil, List.mem_cons, List.not_mem_nil, or_false]
          rw [huid, hx c (List.mem_singleton_self c)]
        exact absurd hc hmem

lemma random_selection_singleton (a : Ind) (ps : ℕ) (rand : ℕ → ℕ) (fuel t : ℕ)
    (hf : 1 ≤ fuel) :
    random_selection [a] ps rand fuel t = some (List.replicate ps a, t) := by
  unfold random_selection
  rw [random_selection_aux.eq_def]
  by_cases hps : 0 < ps
  · simp only [if_pos (show ([] : List Ind).length < ps ∧ 0 < ps * 10 by
      constructor <;> simp <;> omega)]
    match fuel, hf with
    | f + 1, _ => simp
  · have : ps = 0 := by omega
    subst this
    simp

lemma pyMax_replicate (a : Ind) (n : ℕ) (hn : 1 ≤ n) :
    pyMax (List.replicate n a) = some a := by
  match n, hn with
  | m + 1, _ =>
    have hfold : ∀ k : ℕ,
        (List.replicate k a).foldl
          (fun best y => if best.fitness < y.fitness then y else best) a = a := by
      intro k
      induction k with
      | zero => rfl
      | succ k ih => simpa [List.replicate_succ] using ih
    simp [pyMax, List.replicate_succ, hfold m]

lemma tournament_aux_singleton_inv (a : Ind) (ps gs : ℕ) (rand : ℕ → ℕ) (fuel : ℕ)
    (hgs : 1 ≤ gs) (hf : 1 ≤ fuel) :
    ∀ (k t : ℕ), tournament_aux [a] ps gs rand fuel k [a] t = some [a] := by
  intro k
  induction k with
  | zero => intro t; rfl
  | succ k ih =>
    intro t
    rw [tournament_aux]
    by_cases hps : ([a] : List Ind).length < ps
    · simp only [if_pos hps, random_selection_singleton a gs rand fuel t hf,
        pyMax_replicate a gs hgs]
      simp only [List.map_cons, List.map_nil, List.mem_cons, List.not_mem_nil, or_false,
        if_pos rfl]
      exact ih t
    · simp only [if_neg hps]

lemma one_le_toNat_group_size (f : ℚ) : 1 ≤ (tournament_group_size 1 f).toNat := by
  have h1 : (1 : ℤ) ≤ tournament_group_size 1 f := by
    unfold tournament_group_size
    have : (if (1 : ℕ) < 1 then (2 : ℤ) else 1) = 1 := by simp
    rw [this]
    exact le_max_right _ _
  omega

lemma tournament_singleton (a : Ind) (ps : ℕ) (f : ℚ) (rand : ℕ → ℕ) (fuel : ℕ)
    (hp : 1 ≤ ps) (hf : 1 ≤ fuel) :
    tournament_selection [a] ps f rand fuel = some [a] := by
  unfold tournament_selection
  obtain ⟨m, hm⟩ : ∃ m, ps * 10 = m + 1 := ⟨ps * 10 - 1, by omega⟩
  rw [hm, tournament_aux]
  have hgs : 1 ≤ (tournament_group_size ([a] : List Ind).length f).toNat := by
    simpa using one_le_toNat_group_size f
  rw [if_pos (show ([] : List Ind).length < ps by simpa using hp)]
  simp only [random_selection_singleton a _ rand fuel 0 hf, pyMax_replicate a _ hgs,
    List.map_nil, List.not_mem_nil, if_false, List.nil_append]
  simpa using tournament_aux_singleton_inv a ps _ rand fuel hgs hf m 0

lemma random_selection_aux_length (individuals : List Ind) (ps : ℕ) (rand : ℕ → ℕ)
    (hne : individuals ≠ []) :
    ∀ (fuel : ℕ) (chosen : List Ind) (t : ℕ) (g : List Ind) (t' : ℕ),
      chosen.length ≤ ps →
      random_selection_aux individuals ps rand fuel chosen 0 t = some (g, t') →
      g.length = ps := by
  intro fuel
  induction fuel with
  | zero =>
    intro chosen t g t' hlen h
    rw [random_selection_aux] at h
    by_cases hg : chosen.length < ps ∧ 0 < ps * 10
    · rw [if_pos hg] at h
      exact absurd h (by simp)
    · rw [if_neg hg, Option.some.injEq, Prod.mk.injEq] at h
      obtain ⟨h1, -⟩ := h
      rw [← h1]
      omega
  | succ f ih =>
    intro chosen t g t' hlen h
    rw [random_selection_aux] at h
    by_cases hg : chosen.length < ps ∧ 0 < ps * 10
    · rw [if_pos hg] at h
      simp only [if_neg hne] at h
      by_cases hone : individuals.length ≤ 1
      · rw [if_pos hone, Option.some.injEq, Prod.mk.injEq] at h
        obtain ⟨h1, -⟩ := h
        rw [← h1, List.length_replicate]
      · rw [if_neg hone] at h
        by_cases hmem : (pyChoice individuals (rand t)).uid ∈ chosen.map Ind.uid
        · simp only [if_pos hmem] at h
          exact ih chosen (t + 1) g t' hlen h
        · simp only [if_neg hmem] at h
          refine ih _ (t + 1) g t' ?_ h
          simp only [List.length_append, List.length_cons, List.length_nil]
          omega
    · rw [if_neg hg, Option.some.injEq, Prod.mk.injEq] at h
      obtain ⟨h1, -⟩ := h
      rw [← h1]
      omega

/-! ### Claims C1, C3, C4 -/

/-- C1: the claim that `tournament_selection` performs at most
`pop_size * 10` group-sampling attempts and terminates on every input is
refuted by the code: `random_selection` declares `n_iter` and tests
`n_iter < pop_size * 10` in its loop guard but never increments it, so on a
two-individual population whose members share a uid the inner loop can never
fill a group of size 2 and `tournament_selection` never returns — for every
amount of fuel and every random stream the embedded call is still running. -/
theorem tournament_selection_diverges_on_duplicate_uids (rand : ℕ → ℕ) (fuel : ℕ) :
    tournament_selection [⟨0, 0⟩, ⟨0, 1⟩] 1 (1 / 10) rand fuel = none := by
  unfold tournament_selection
  have hgs : (tournament_group_size ([(⟨0, 0⟩ : Ind), ⟨0, 1⟩] : List Ind).length
      (1 / 10)).toNat = 2 := by
    have hl : ([(⟨0, 0⟩ : Ind), ⟨0, 1⟩] : List Ind).length = 2 := rfl
    rw [hl]
    have hc : (⌈((2 : ℕ) : ℚ) * (1 / 10)⌉ : ℤ) = 1 := by
      rw [Int.ceil_eq_iff]
      push_cast
      norm_num
    unfold tournament_group_size
    rw [hc]
    decide
  rw [hgs, show (1 * 10 : ℕ) = 9 + 1 from rfl, tournament_aux]
  simp only [if_pos (show ([] : List Ind).length < 1 by simp)]
  rw [show random_selection [⟨0, 0⟩, ⟨0, 1⟩] 2 rand fuel 0 = none from
    random_selection_aux_stuck ⟨0, 0⟩ ⟨0, 1⟩ rfl rand fuel [] 0 0 (by simp) (by omega)
      (by simp)]

/-- C3 (corrected): on a single-individual population, `tournament_selection`
with any requested size `k ≥ 1` returns a list containing that individual
exactly once (`[a]`), because chosen individuals are deduplicated by uid — it
does not return `k` repeated copies. -/
theorem tournament_selection_singleton_pop (a : Ind) (k : ℕ) (f : ℚ) (rand : ℕ → ℕ)
    (fuel : ℕ) (hk : 1 ≤ k) (hf : 1 ≤ fuel) :
    tournament_selection [a] k f rand fuel = some [a] :=
  tournament_singleton a k f rand fuel hk hf

/-- Witness for C3: the concrete call with requested size 2 on a singleton
population returns the one individual once. -/
theorem tournament_selection_singleton_pop_witness :
    tournament_selection [⟨0, 0⟩] 2 (1 / 10) (fun _ => 0) 1 = some [⟨0, 0⟩] :=
  tournament_selection_singleton_pop ⟨0, 0⟩ 2 (1 / 10) (fun _ => 0) 1 (by decide) (by decide)

/-- C3 counterexample: with population `[a]` and requested size `2`,
`tournament_selection` does not return the individual repeated twice. -/
theorem tournament_selection_singleton_pop_cex :
    tournament_selection [⟨0, 0⟩] 2 (1 / 10) (fun _ => 0) 1 ≠
      some (List.replicate 2 ⟨0, 0⟩) := by
  rw [tournament_singleton ⟨0, 0⟩ 2 (1 / 10) (fun _ => 0) 1 (by decide) (by decide)]
  intro h
  have := congrArg (fun o => (Option.getD o []).length) h
  simp at this

/-- C4 (corrected): for a nonempty population of size `N`, every group that
`tournament_selection` obtains from `random_selection` (called with the
group-size it computes) has exactly `(tournament_group_size N f).toNat`
elements, and for `N > 1` that size is `max 2 ⌈f * N⌉` as claimed; for `N = 1`
the minimum group size is 1, not 2. -/
theorem tournament_group_size_correct (individuals : List Ind) (f : ℚ) (rand : ℕ → ℕ)
    (fuel t t' : ℕ) (g : List Ind) (hne : individuals ≠ [])
    (h : random_selection individuals (tournament_group_size individuals.length f).toNat
      rand fuel t = some (g, t')) :
    g.length = (tournament_group_size individuals.length f).toNat ∧
      (1 < individuals.length →
        tournament_group_size individuals.length f =
          max 2 ⌈(individuals.length : ℚ) * f⌉) := by
  constructor
  · exact random_selection_aux_length individuals _ rand hne fuel [] t g t' (by simp) h
  · intro hlen
    unfold tournament_group_size
    rw [if_pos hlen, max_comm]

/-- Witness for C4: a concrete two-individual population with fraction 1; the
sampled group has the computed size `max 2 ⌈2 * 1⌉ = 2`. -/
theorem tournament_group_size_correct_witness :
    (([⟨0, 0⟩, ⟨1, 1⟩] : List Ind) ≠ [] ∧
      random_selection [⟨0, 0⟩, ⟨1, 1⟩]
        (tournament_group_size ([(⟨0, 0⟩ : Ind), ⟨1, 1⟩] : List Ind).length 1).toNat
        (fun n => n) 3 0 = some ([⟨0, 0⟩, ⟨1, 1⟩], 2)) ∧
    ([(⟨0, 0⟩ : Ind), ⟨1, 1⟩] : List Ind).length =
      (tournament_group_size ([(⟨0, 0⟩ : Ind), ⟨1, 1⟩] : List Ind).length 1).toNat := by
  have hgs : (tournament_group_size ([(⟨0, 0⟩ : Ind), ⟨1, 1⟩] : List Ind).length 1).toNat
      = 2 := by
    have hl : ([(⟨0, 0⟩ : Ind), ⟨1, 1⟩] : List Ind).length = 2 := rfl
    rw [hl]
    have hc : (⌈((2 : ℕ) : ℚ) * 1⌉ : ℤ) = 2 := by
      rw [Int.ceil_eq_iff]
      push_cast
      norm_num
    unfold tournament_group_size
    rw [hc]
    decide
  have hrs : random_selection [⟨0, 0⟩, ⟨1, 1⟩]
      (tournament_group_size ([(⟨0, 0⟩ : Ind), ⟨1, 1⟩] : List Ind).length 1).toNat
      (fun n => n) 3 0 = some ([⟨0, 0⟩, ⟨1, 1⟩], 2) := by
    rw [hgs]
    decide
  refine ⟨⟨by simp, hrs⟩, ?_⟩
  exact (tournament_group_size_correct [⟨0, 0⟩, ⟨1, 1⟩] 1 (fun n => n) 3 0 2
    [⟨0, 0⟩, ⟨1, 1⟩] (by simp) hrs).1

/-- C4 counterexample: on a population of size `N = 1` with the default
fraction `0.1`, the tournament group size computed by the code is `1`, not
`max 2 ⌈0.1 * 1⌉ = 2`. -/
theorem tournament_group_size_cex :
    tournament_group_size 1 (1 / 10) ≠ max 2 ⌈((1 : ℕ) : ℚ) * (1 / 10)⌉ := by
  have h2 : (⌈((1 : ℕ) : ℚ) * (1 / 10)⌉ : ℤ) = 1 := by
    rw [Int.ceil_eq_iff]
    push_cast
    norm_num
  have h1 : tournament_group_size 1 (1 / 10) = 1 := by
    unfold tournament_group_size
    rw [h2]
    decide
  rw [h1, h2]
  decide

/-! ### Initial population generator
(`fedot/core/optimisers/initial_graphs_generator.py`) -/

/-- `MAXIMAL_ATTEMPTS_NUMBER` (`fedot/core/constants.py`, line 5). -/
def MAXIMAL_ATTEMPTS_NUMBER : ℕ := 1000

/-- The generation loop of `InitialPopulationGenerator.__call__`
(`initial_graphs_generator.py`, lines 48-59), for graph type `G`.
`gen n` is the graph produced by the `n`-th call of `self.generation_function`
(either the caller-supplied function or the default randomized growth —
both are opaque graph sources here); `verifier` is
`self.generation_params.verifier`.  Returns the population, the final value
of `n_iter` (= the number of generation attempts), and whether the
max-attempts warning was logged. -/
def init_pop_loop {G : Type} [DecidableEq G] (gen : ℕ → G) (verifier : G → Bool)
    (pop_size : ℕ) (population : List G) (n_iter : ℕ) : List G × ℕ × Bool :=
  if population.length < pop_size then
    let new_graph := gen n_iter
    let population' :=
      if new_graph ∉ population ∧ verifier new_graph then population ++ [new_graph]
      else population
    if MAXIMAL_ATTEMPTS_NUMBER ≤ n_iter + 1 then (population', n_iter + 1, true)
    else init_pop_loop gen verifier pop_size population' (n_iter + 1)
  else (population, n_iter, false)
termination_by MAXIMAL_ATTEMPTS_NUMBER - n_iter
decreasing_by
  unfold MAXIMAL_ATTEMPTS_NUMBER at *
  omega

/-- `InitialPopulationGenerator.__call__` (`initial_graphs_generator.py`,
lines 31-59).  `initial_graphs = some gs` with `gs` nonempty models a truthy
`self.initial_graphs` (explicit seed graphs); otherwise the generation
function is used (graph equality models Python `in`, i.e. structural
equality by fingerprint). -/
def initial_population_call {G : Type} [DecidableEq G] (initial_graphs : Option (List G))
    (gen : ℕ → G) (verifier : G → Bool) (pop_size : ℕ) : List G × ℕ × Bool :=
  match initial_graphs with
  | some gs =>
    if gs ≠ [] then
      (if pop_size < gs.length then gs.take pop_size else gs, 0, false)
    else init_pop_loop gen verifier pop_size [] 0
  | none => init_pop_loop gen verifier pop_size [] 0

lemma nodup_verified_append {G : Type} [DecidableEq G] (verifier : G → Bool)
    (population : List G) (g : G) (hnd : population.Nodup)
    (hv : ∀ x ∈ population, verifier x = true)
    (hg : g ∉ population) (hvg : verifier g = true) :
    (population ++ [g]).Nodup ∧ ∀ x ∈ population ++ [g], verifier x = true := by
  constructor
  · simp [List.nodup_append, hnd, hg]
  · intro x hx
    rcases List.mem_append.mp hx with hx | hx
    · exact hv x hx
    · rw [List.mem_singleton.mp hx]
      exact hvg

lemma init_pop_loop_invariant_aux {G : Type} [DecidableEq G] (gen : ℕ → G)
    (verifier : G → Bool) (pop_size : ℕ) :
    ∀ (k : ℕ) (population : List G) (n_iter : ℕ),
      MAXIMAL_ATTEMPTS_NUMBER - n_iter ≤ k →
      population.Nodup → (∀ g ∈ population, verifier g = true) →
      ((init_pop_loop gen verifier pop_size population n_iter).1.Nodup ∧
       ∀ g ∈ (init_pop_loop gen verifier pop_size population n_iter).1,
         verifier g = true) := by
  intro k
  induction k with
  | zero =>
    intro population n_iter hk hnd hv
    rw [init_pop_loop]
    by_cases hlt : population.length < pop_size
    · rw [if_pos hlt, if_pos (show MAXIMAL_ATTEMPTS_NUMBER ≤ n_iter + 1 by omega)]
      by_cases hnew : gen n_iter ∉ population ∧ verifier (gen n_iter)
      · simp only [if_pos hnew]
        exact nodup_verified_append verifier population (gen n_iter) hnd hv hnew.1 hnew.2
      · simp only [if_neg hnew]
        exact ⟨hnd, hv⟩
    · rw [if_neg hlt]
      exact ⟨hnd, hv⟩
  | succ k ih =>
    intro population n_iter hk hnd hv
    rw [init_pop_loop]
    by_cases hlt : population.length < pop_size
    · rw [if_pos hlt]
      have hstep : ∀ population' : List G, population'.Nodup →
          (∀ g ∈ population', verifier g = true) →
          ((if MAXIMAL_ATTEMPTS_NUMBER ≤ n_iter + 1 then (population', n_iter + 1, true)
            else init_pop_loop gen verifier pop_size population' (n_iter + 1)).1.Nodup ∧
           ∀ g ∈ (if MAXIMAL_ATTEMPTS_NUMBER ≤ n_iter + 1 then (population', n_iter + 1, true)
            else init_pop_loop gen verifier pop_size population' (n_iter + 1)).1,
             verifier g = true) := by
        intro population' hnd' hv'
        by_cases hmax : MAXIMAL_ATTEMPTS_NUMBER ≤ n_iter + 1
        · rw [if_pos hmax]
          exact ⟨hnd', hv'⟩
        · rw [if_neg hmax]
          exact ih population' (n_iter + 1) (by omega) hnd' hv'
      by_cases hnew : gen n_iter ∉ population ∧ verifier (gen n_iter)
      · simp only [if_pos hnew]
        obtain ⟨hnd', hv'⟩ :=
          nodup_verified_append verifier population (gen n_iter) hnd hv hnew.1 hnew.2
        exact hstep _ hnd' hv'
      · simp only [if_neg hnew]
        exact hstep _ hnd hv
    · rw [if_neg hlt]
      exact ⟨hnd, hv⟩

lemma init_pop_loop_attempts_aux {G : Type} [DecidableEq G] (gen : ℕ → G)
    (verifier : G → Bool) (pop_size : ℕ) :
    ∀ (k : ℕ) (population : List G) (n_iter : ℕ),
      MAXIMAL_ATTEMPTS_NUMBER - n_iter ≤ k →
      n_iter < MAXIMAL_ATTEMPTS_NUMBER →
      ((init_pop_loop gen verifier pop_size population n_iter).2.1 ≤
        MAXIMAL_ATTEMPTS_NUMBER ∧
      ((init_pop_loop gen verifier pop_size population n_iter).1.length < pop_size →
        (init_pop_loop gen verifier pop_size population n_iter).2.1 =
          MAXIMAL_ATTEMPTS_NUMBER ∧
        (init_pop_loop gen verifier pop_size population n_iter).2.2 = true)) := by
  intro k
  induction k with
  | zero =>
    intro population n_iter hk hn
    exact absurd hn (by omega)
  | succ k ih =>
    intro population n_iter hk hn
    rw [init_pop_loop]
    by_cases hlt : population.length < pop_size
    · rw [if_pos hlt]
      by_cases hmax : MAXIMAL_ATTEMPTS_NUMBER ≤ n_iter + 1
      · rw [if_pos hmax]
        exact ⟨(by omega : n_iter + 1 ≤ MAXIMAL_ATTEMPTS_NUMBER), fun _ =>
          ⟨(by omega : n_iter + 1 = MAXIMAL_ATTEMPTS_NUMBER), rfl⟩⟩
      · rw [if_neg hmax]
        exact ih _ (n_iter + 1) (by omega) (by omega)
    · rw [if_neg hlt]
      exact ⟨(by omega : n_iter ≤ MAXIMAL_ATTEMPTS_NUMBER), fun hc => absurd hc hlt⟩

/-- C6 (corrected): graphs produced through the generation-function path of
`InitialPopulationGenerator.__call__` (no seed graphs supplied) all satisfy
the verifier and are pairwise distinct; explicitly supplied seed graphs, by
contrast, are returned truncated to the population size without any verifier
or duplicate check. -/
theorem initial_population_verified_nodup {G : Type} [DecidableEq G]
    (gen : ℕ → G) (verifier : G → Bool) (pop_size : ℕ) (gs : List G) (hgs : gs ≠ []) :
    ((initial_population_call none gen verifier pop_size).1.Nodup ∧
      ∀ g ∈ (initial_population_call none gen verifier pop_size).1,
        verifier g = true) ∧
    (initial_population_call (some gs) gen verifier pop_size).1 =
      (if pop_size < gs.length then gs.take pop_size else gs) := by
  constructor
  · have h := init_pop_loop_invariant_aux gen verifier pop_size
      MAXIMAL_ATTEMPTS_NUMBER [] 0 (by omega) (by simp) (by simp)
    rw [initial_population_call]
    exact h
  · rw [initial_population_call, if_pos hgs]

/-- Witness for C6: a generation function that repeats the same graph forever
with an accepting verifier yields a one-element, verified, duplicate-free
population, and a two-element duplicated seed list is returned as-is. -/
theorem initial_population_verified_nodup_witness :
    ((([0, 0] : List ℕ) ≠ []) ∧
      (initial_population_call none (fun _ => 0) (fun _ => true) 3).1.Nodup ∧
      (initial_population_call (some [0, 0]) (fun _ => 0) (fun _ => true) 3).1 =
        [0, 0]) := by
  refine ⟨by simp, ?_, ?_⟩
  · exact (initial_population_verified_nodup (fun _ => 0) (fun _ => true) 3 [0, 0]
      (by simp)).1.1
  · have h := (initial_population_verified_nodup (fun _ => (0 : ℕ)) (fun _ => true) 3
      [0, 0] (by simp)).2
    simpa using h

/-- C6 counterexample: with a seed list whose single graph fails the verifier,
`InitialPopulationGenerator.__call__` still returns that graph (seed graphs
are not verified), refuting the claim for the seed-graph strategy. -/
theorem initial_population_seed_not_verified_cex :
    (initial_population_call (some [0]) (fun _ => (0 : ℕ)) (fun _ => false) 5).1 = [0] ∧
      (fun _ => false : ℕ → Bool) 0 = false := by
  constructor
  · rfl
  · rfl

/-- C7: when no seed graphs are supplied, `InitialPopulationGenerator.__call__`
performs at most `MAXIMAL_ATTEMPTS_NUMBER = 1000` generation attempts, always
returns a population (the embedding is a total function, never an error), and
whenever the returned population is undersized the attempt ceiling was reached
and the warning was emitted. -/
theorem initial_population_attempts_bounded {G : Type} [DecidableEq G]
    (gen : ℕ → G) (verifier : G → Bool) (pop_size : ℕ) :
    (initial_population_call none gen verifier pop_size).2.1 ≤
      MAXIMAL_ATTEMPTS_NUMBER ∧
    ((initial_population_call none gen verifier pop_size).1.length < pop_size →
      (initial_population_call none gen verifier pop_size).2.1 =
        MAXIMAL_ATTEMPTS_NUMBER ∧
      (initial_population_call none gen verifier pop_size).2.2 = true) := by
  have h := init_pop_loop_attempts_aux gen verifier pop_size
    MAXIMAL_ATTEMPTS_NUMBER [] 0 (by omega) (by decide)
  rw [initial_population_call]
  exact h

/-! ### `Selection.individuals_selection` (`selection.py`, lines 42-61) -/

/-- Loop of `Selection.individuals_selection` (`selection.py`, lines 53-59).
`sel i l` models `self.__call__(remaining_individuals)[0]` at iteration `i`
(the temporarily reconfigured selection with `pop_size = 1`, a randomized
strategy choice); `pool_size` is `individuals_pool_size`, captured before the
loop; `k` counts the remaining iterations of the guard `n_iter < pop_size*10`.
The state is `(chosen, remaining)` where `remaining` aliases the caller's
input list, mutated in place by `remaining_individuals.remove(individual)`
(`List.erase`: remove the first occurrence).  Returns the final
`(chosen, remaining)`. -/
def individuals_selection_loop (pop_size pool_size : ℕ) (sel : ℕ → List Ind → Ind) :
    ℕ → List Ind → List Ind → List Ind × List Ind
  | 0, chosen, remaining => (chosen, remaining)
  | k + 1, chosen, remaining =>
    if chosen.length < pop_size ∧ remaining ≠ [] then
      let individual := sel k remaining
      if individual.uid ∈ chosen.map Ind.uid then
        individuals_selection_loop pop_size pool_size sel k chosen remaining
      else
        individuals_selection_loop pop_size pool_size sel k (chosen ++ [individual])
          (if pop_size ≤ pool_size then remaining.erase individual else remaining)
    else (chosen, remaining)

/-- `Selection.individuals_selection` (`selection.py`, lines 42-61).  The
second component of the result is the caller's input list as left after the
call (the source mutates it in place). -/
def individuals_selection (pop_size : ℕ) (individuals : List Ind)
    (sel : ℕ → List Ind → Ind) : List Ind × List Ind :=
  if pop_size = individuals.length then (individuals, individuals)
  else individuals_selection_loop pop_size individuals.length sel (pop_size * 10)
    [] individuals

lemma individuals_selection_loop_multiset (pop_size pool_size : ℕ)
    (sel : ℕ → List Ind → Ind) (hsel : ∀ i l, l ≠ [] → sel i l ∈ l)
    (hps : pop_size ≤ pool_size) :
    ∀ (k : ℕ) (chosen remaining : List Ind),
      (↑(individuals_selection_loop pop_size pool_size sel k chosen remaining).1 +
        ↑(individuals_selection_loop pop_size pool_size sel k chosen remaining).2
          : Multiset Ind) =
        ↑chosen + ↑remaining := by
  intro k
  induction k with
  | zero => intro chosen remaining; rfl
  | succ k ih =>
    intro chosen remaining
    rw [individuals_selection_loop]
    by_cases hg : chosen.length < pop_size ∧ remaining ≠ []
    · rw [if_pos hg]
      by_cases hmem : (sel k remaining).uid ∈ chosen.map Ind.uid
      · simp only [if_pos hmem]
        exact ih chosen remaining
      · simp only [if_neg hmem, if_pos hps]
        rw [ih (chosen ++ [sel k remaining]) (remaining.erase (sel k remaining))]
        have hin : sel k remaining ∈ remaining := hsel k remaining hg.2
        have hperm : List.Perm remaining
            (sel k remaining :: remaining.erase (sel k remaining)) :=
          List.perm_cons_erase hin
        rw [show (↑remaining : Multiset Ind) =
          ↑(sel k remaining :: remaining.erase (sel k remaining)) from
            Multiset.coe_eq_coe.mpr hperm]
        simp only [← Multiset.coe_add, List.append_assoc, List.singleton_append]
        rw [add_assoc, Multiset.coe_add, List.singleton_append]
    · rw [if_neg hg]

/-- C9: `individuals_selection` is not side-effect-free: whenever
`pop_size < individuals.length`, every chosen individual is removed in place
from the caller's list, so the chosen individuals together with what remains
of the caller's list are exactly the original individuals (as a multiset);
and whenever `pop_size = individuals.length`, the input sequence itself is
returned unchanged. -/
theorem individuals_selection_frame (pop_size : ℕ) (individuals : List Ind)
    (sel : ℕ → List Ind → Ind) (hsel : ∀ i l, l ≠ [] → sel i l ∈ l) :
    (pop_size = individuals.length →
      individuals_selection pop_size individuals sel = (individuals, individuals)) ∧
    (pop_size < individuals.length →
      (↑(individuals_selection pop_size individuals sel).1 +
        ↑(individuals_selection pop_size individuals sel).2 : Multiset Ind) =
        ↑individuals) := by
  constructor
  · intro h
    rw [individuals_selection, if_pos h]
  · intro h
    rw [individuals_selection, if_neg (by omega)]
    rw [individuals_selection_loop_multiset pop_size individuals.length sel hsel
      (by omega) (pop_size * 10) [] individuals]
    rfl

/-- Witness for C9: with a head-picking inner selection on a two-individual
population, `pop_size = 2` returns the input unchanged and `pop_size = 1`
splits it: chosen plus the remainder of the caller's list re-assemble the
input.  The inner selection always returns a member of its (nonempty)
argument. -/
theorem individuals_selection_frame_witness :
    individuals_selection 2 [⟨0, 0⟩, ⟨1, 1⟩] (fun _ l => l.headD ⟨0, 0⟩) =
      ([⟨0, 0⟩, ⟨1, 1⟩], [⟨0, 0⟩, ⟨1, 1⟩]) ∧
    (↑(individuals_selection 1 [⟨0, 0⟩, ⟨1, 1⟩] (fun _ l => l.headD ⟨0, 0⟩)).1 +
      ↑(individuals_selection 1 [⟨0, 0⟩, ⟨1, 1⟩] (fun _ l => l.headD ⟨0, 0⟩)).2
        : Multiset Ind) = ↑([⟨0, 0⟩, ⟨1, 1⟩] : List Ind) := by
  have hsel : ∀ (i : ℕ) (l : List Ind), l ≠ [] →
      (fun (_ : ℕ) (l : List Ind) => l.headD ⟨0, 0⟩) i l ∈ l := by
    intro i l hl
    match l, hl with
    | x :: xs, _ => exact List.mem_cons_self x xs
  exact ⟨(individuals_selection_frame 2 [⟨0, 0⟩, ⟨1, 1⟩]
      (fun _ l => l.headD ⟨0, 0⟩) hsel).1 rfl,
    (individuals_selection_frame 1 [⟨0, 0⟩, ⟨1, 1⟩]
      (fun _ l => l.headD ⟨0, 0⟩) hsel).2 (by decide)⟩

/-! ### Pipeline root node (`fedot/core/pipelines/pipeline.py`, lines 294-302) -/

/-- A pipeline node: a stable identifier `pid` and the identifiers of its
parents (`nodes_from`). -/
structure PNode where
  pid : ℕ
  nodes_from : List ℕ
deriving DecidableEq, Repr

/-- The Python exceptions `root_node` can raise. -/
inductive PyError where
  | valueError
  | indexError
deriving DecidableEq, Repr

/-- Modelled from the spec: `GraphOperator.node_children` is not among the
embedded sources; per the spec a root is "the node with no children", so a
node's children are the nodes of the pipeline that list it among their
parents. -/
def node_children (nodes : List PNode) (n : PNode) : List PNode :=
  nodes.filter (fun m => n.pid ∈ m.nodes_from)

/-- `Pipeline.root_node` (`pipeline.py`, lines 294-302): `ok none` for an
empty pipeline; the list of childless nodes is computed by scanning all
nodes; more than one childless node raises `ValueError`; `root[0]` on an
empty candidate list raises `IndexError`. -/
def root_node (nodes : List PNode) : Except PyError (Option PNode) :=
  if nodes.length = 0 then .ok none
  else
    let root := nodes.filter (fun n => (node_children nodes n).isEmpty)
    if 1 < root.length then .error .valueError
    else
      match root with
      | [] => .error .indexError
      | r :: _ => .ok (some r)

/-- C8: a pipeline whose node set contains more than one node without
children makes the `root_node` property raise `ValueError` (root lookup scans
all nodes for those with no children). -/
theorem root_node_multiple_roots_error (nodes : List PNode)
    (h : 1 < (nodes.filter (fun n => (node_children nodes n).isEmpty)).length) :
    root_node nodes = .error .valueError := by
  have hne : nodes.length ≠ 0 := by
    intro h0
    rw [List.length_eq_zero.mp h0] at h
    simp at h
  rw [root_node, if_neg hne]
  simp only [if_pos h]

/-- Witness for C8: a two-node pipeline with no edges has two childless nodes
and `root_node` raises `ValueError`. -/
theorem root_node_multiple_roots_error_witness :
    1 < (([⟨0, []⟩, ⟨1, []⟩] : List PNode).filter
        (fun n => (node_children [⟨0, []⟩, ⟨1, []⟩] n).isEmpty)).length ∧
    root_node [⟨0, []⟩, ⟨1, []⟩] = .error .valueError :=
  ⟨by decide, root_node_multiple_roots_error [⟨0, []⟩, ⟨1, []⟩] (by decide)⟩

/-- C10: on an empty pipeline `root_node` returns `None` (no exception), and
whenever `root_node` returns a node the pipeline is nonempty and that node is
its unique childless node. -/
theorem root_node_empty_and_unique (nodes : List PNode) (r : PNode)
    (h : root_node nodes = .ok (some r)) :
    root_node ([] : List PNode) = .ok none ∧
      nodes ≠ [] ∧
      nodes.filter (fun n => (node_children nodes n).isEmpty) = [r] := by
  refine ⟨rfl, ?_, ?_⟩
  · intro h0
    rw [h0, show root_node ([] : List PNode) = .ok none from rfl] at h
    simp at h
  · rw [root_node] at h
    by_cases h0 : nodes.length = 0
    · rw [if_pos h0] at h
      exact absurd h (by simp)
    · rw [if_neg h0] at h
      by_cases h1 : 1 < (nodes.filter (fun n => (node_children nodes n).isEmpty)).length
      · simp only [if_pos h1] at h
        exact absurd h (by simp)
      · simp only [if_neg h1] at h
        match hr : nodes.filter (fun n => (node_children nodes n).isEmpty), h1 with
        | [x], _ =>
          rw [hr] at h
          simp only [Except.ok.injEq, Option.some.injEq] at h
          rw [h]
        | [], _ =>
          rw [hr] at h
          exact absurd h (by simp)
        | x :: y :: rest, hcon =>
          exact absurd (show 1 < (x :: y :: rest).length by
            simp only [List.length_cons]; omega) hcon

/-- Witness for C10: a concrete two-node chain `0 → 1` has the unique
childless node `1`, which `root_node` returns. -/
theorem root_node_empty_and_unique_witness :
    root_node [⟨0, []⟩, ⟨1, [0]⟩] = .ok (some ⟨1, [0]⟩) ∧
      (root_node ([] : List PNode) = .ok none ∧
        ([⟨0, []⟩, ⟨1, [0]⟩] : List PNode) ≠ [] ∧
        ([⟨0, []⟩, ⟨1, [0]⟩] : List PNode).filter
          (fun n => (node_children [⟨0, []⟩, ⟨1, [0]⟩] n).isEmpty) = [⟨1, [0]⟩]) :=
  ⟨rfl, root_node_empty_and_unique [⟨0, []⟩, ⟨1, [0]⟩] ⟨1, [0]⟩ rfl⟩

/-! ### Fitness evaluation cache -/

/-- Modelled from the spec: lookup of a structural fingerprint in the
evaluation cache (the objective evaluator & cache module is not among the
embedded sources; per the spec the cache is a mapping from fingerprint to the
previously computed fitness). -/
def cache_lookup {K V : Type} [DecidableEq K] (cache : List (K × V)) (k : K) :
    Option V :=
  match cache with
  | [] => none
  | (k', v) :: rest => if k' = k then some v else cache_lookup rest k

/-- Modelled from the spec: answering one fitness request.  A cache hit
returns the stored fitness without invoking the external evaluator; a miss
invokes it once and stores the result.  Returns the fitness, the updated
cache, and whether the external evaluator was invoked. -/
def evaluate_cached {K V : Type} [DecidableEq K] (evaluator : K → V)
    (cache : List (K × V)) (fingerprint : K) : V × List (K × V) × Bool :=
  match cache_lookup cache fingerprint with
  | some v => (v, cache, false)
  | none => (evaluator fingerprint, (fingerprint, evaluator fingerprint) :: cache, true)

/-- Modelled from the spec: a whole run's sequence of fitness-evaluation
requests processed against the shared cache, oldest first.  Returns, for each
request, the fingerprint, the returned fitness, and whether the external
evaluator was invoked for it. -/
def run_evaluations {K V : Type} [DecidableEq K] (evaluator : K → V) :
    List K → List (K × V) → List (K × V × Bool)
  | [], _ => []
  | k :: ks, cache =>
    let r := evaluate_cached evaluator cache k
    (k, r.1, r.2.2) :: run_evaluations evaluator ks r.2.1

lemma cache_lookup_none_iff {K V : Type} [DecidableEq K] :
    ∀ (cache : List (K × V)) (k : K),
      cache_lookup cache k = none ↔ k ∉ cache.map Prod.fst := by
  intro cache
  induction cache with
  | nil => intro k; simp [cache_lookup]
  | cons p rest ih =>
    intro k
    obtain ⟨k', v⟩ := p
    rw [cache_lookup]
    by_cases hk : k' = k
    · simp [hk]
    · simp only [if_neg hk, List.map_cons, List.mem_cons]
      rw [ih k]
      constructor
      · intro h hc
        rcases hc with hc | hc
        · exact hk hc.symm
        · exact h hc
      · intro h
        exact fun hc => h (Or.inr hc)

lemma cache_lookup_some_mem {K V : Type} [DecidableEq K] :
    ∀ (cache : List (K × V)) (k : K) (v : V),
      cache_lookup cache k = some v → (k, v) ∈ cache := by
  intro cache
  induction cache with
  | nil => intro k v h; simp [cache_lookup] at h
  | cons p rest ih =>
    intro k v h
    obtain ⟨k', v'⟩ := p
    rw [cache_lookup] at h
    by_cases hk : k' = k
    · rw [if_pos hk] at h
      subst hk
      rw [Option.some.injEq] at h
      subst h
      exact List.mem_cons_self _ _
    · rw [if_neg hk] at h
      exact List.mem_cons_of_mem _ (ih k v h)

lemma evaluate_cached_invoked_iff {K V : Type} [DecidableEq K] (evaluator : K → V)
    (cache : List (K × V)) (k : K) :
    (evaluate_cached evaluator cache k).2.2 = false ↔ k ∈ cache.map Prod.fst := by
  rw [evaluate_cached]
  match hl : cache_lookup cache k with
  | some v =>
    simp only [iff_true_intro (List.mem_map_of_mem Prod.fst
      (cache_lookup_some_mem cache k v hl)), iff_true]
  | none =>
    simp only [iff_false_intro ((cache_lookup_none_iff cache k).mp hl)]
    simp

lemma evaluate_cached_mem_after {K V : Type} [DecidableEq K] (evaluator : K → V)
    (cache : List (K × V)) (k k' : K)
    (h : k' ∈ cache.map Prod.fst ∨ k' = k) :
    k' ∈ (evaluate_cached evaluator cache k).2.1.map Prod.fst := by
  rw [evaluate_cached]
  match hl : cache_lookup cache k with
  | some v =>
    rcases h with h | h
    · exact h
    · subst h
      exact List.mem_map_of_mem Prod.fst (cache_lookup_some_mem cache k' v hl)
  | none =>
    simp only [List.map_cons, List.mem_cons]
    tauto

lemma evaluate_cached_correct {K V : Type} [DecidableEq K] (evaluator : K → V)
    (cache : List (K × V)) (k : K)
    (hc : ∀ p ∈ cache, p.2 = evaluator p.1) :
    (evaluate_cached evaluator cache k).1 = evaluator k ∧
    (∀ p ∈ (evaluate_cached evaluator cache k).2.1, p.2 = evaluator p.1) := by
  rw [evaluate_cached]
  match hl : cache_lookup cache k with
  | some v =>
    exact ⟨hc (k, v) (cache_lookup_some_mem cache k v hl), hc⟩
  | none =>
    refine ⟨rfl, ?_⟩
    intro p hp
    rcases List.mem_cons.mp hp with hp | hp
    · rw [hp]
    · exact hc p hp

lemma run_evaluations_invoked_once {K V : Type} [DecidableEq K] (evaluator : K → V)
    (k : K) :
    ∀ (reqs : List K) (cache : List (K × V)),
      ((run_evaluations evaluator reqs cache).filter
        (fun r => r.1 = k ∧ r.2.2 = true)).length ≤
        (if k ∈ cache.map Prod.fst then 0 else 1) := by
  intro reqs
  induction reqs with
  | nil => intro cache; simp [run_evaluations]
  | cons q qs ih =>
    intro cache
    rw [run_evaluations, List.filter_cons]
    have hrec := ih (evaluate_cached evaluator cache q).2.1
    by_cases hqk : q = k
    · subst hqk
      have hmem' : q ∈ (evaluate_cached evaluator cache q).2.1.map Prod.fst :=
        evaluate_cached_mem_after evaluator cache q q (Or.inr rfl)
      rw [if_pos hmem'] at hrec
      by_cases hmem : q ∈ cache.map Prod.fst
      · have hfalse : (evaluate_cached evaluator cache q).2.2 = false :=
          (evaluate_cached_invoked_iff evaluator cache q).mpr hmem
        rw [if_neg (by simp [hfalse]), if_pos hmem]
        exact hrec
      · rw [if_neg hmem]
        by_cases hinv : (evaluate_cached evaluator cache q).2.2 = true
        · rw [if_pos (by simp [hinv])]
          simp only [List.length_cons]
          omega
        · have hfalse : (evaluate_cached evaluator cache q).2.2 = false := by
            simpa using hinv
          rw [if_neg (by simp [hfalse])]
          omega
    · rw [if_neg (by simp [hqk])]
      have hsub : (if k ∈ ((evaluate_cached evaluator cache q).2.1).map Prod.fst then 0
          else 1) ≤ (if k ∈ cache.map Prod.fst then (0 : ℕ) else 1) := by
        by_cases hmem : k ∈ cache.map Prod.fst
        · rw [if_pos hmem,
            if_pos (evaluate_cached_mem_after evaluator cache q k (Or.inl hmem))]
        · rw [if_neg hmem]
          split <;> omega
      exact le_trans hrec hsub

/-- C2: across a whole run of fitness-evaluation requests, the external
evaluator is invoked at most once per distinct structural fingerprint, and
every request (hit or miss) returns exactly the evaluator's fitness for its
fingerprint — cache hits return the cached value without a new invocation.
The evaluator & cache module is not among the embedded sources, so the
definitions are modelled from the spec. -/
theorem evaluation_cache_at_most_once {K V : Type} [DecidableEq K]
    (evaluator : K → V) (reqs : List K) (k : K) :
    ((run_evaluations evaluator reqs []).filter
      (fun r => r.1 = k ∧ r.2.2 = true)).length ≤ 1 ∧
    ∀ r ∈ run_evaluations evaluator reqs [], r.2.1 = evaluator r.1 := by
  constructor
  · have h := run_evaluations_invoked_once evaluator k reqs []
    simpa using h
  · have hgen : ∀ (rs : List K) (cache : List (K × V)),
        (∀ p ∈ cache, p.2 = evaluator p.1) →
        ∀ r ∈ run_evaluations evaluator rs cache, r.2.1 = evaluator r.1 := by
      intro rs
      induction rs with
      | nil => intro cache _ r hr; simp [run_evaluations] at hr
      | cons q qs ih =>
        intro cache hc r hr
        rw [run_evaluations] at hr
        rcases List.mem_cons.mp hr with hr | hr
        · rw [hr]
          exact (evaluate_cached_correct evaluator cache q hc).1
        · exact ih (evaluate_cached evaluator cache q).2.1
            (evaluate_cached_correct evaluator cache q hc).2 r hr
    exact hgen reqs [] (by simp)

/-! ### SPEA2 selection (`selection.py`, lines 96-248)

Individuals are represented by their fitness-value vectors (`List ℚ`);
`spea2_selection` only reads `ind.fitness.values` and
`ind.fitness.dominates`.  `float("inf")` in the truncation branch is `⊤` in
`WithTop ℚ`; `math.sqrt(inds_len)`, used only as the `i` argument of
`_randomized_select` and only ever compared against integers, is represented
exactly as `√inds_len - off` with `off : ℤ` accumulated by the recursion. -/

/-- Modelled from the spec: `Fitness.dominates` is not among the embedded
sources; per the spec, A dominates B iff A is at least as good on every
objective and strictly better on one (objectives minimized). -/
def dominates (a b : List ℚ) : Bool :=
  ((a.zip b).all fun p => decide (p.1 ≤ p.2)) &&
    ((a.zip b).any fun p => decide (p.1 < p.2))

/-- The ordered pairs `(i, j)` with `i < j < n`, as iterated by the nested
strength loop (`selection.py`, lines 115-116). -/
def spea2_pairs (n : ℕ) : List (ℕ × ℕ) :=
  (List.range n).flatMap fun i =>
    ((List.range n).filter fun j => i < j).map fun j => (i, j)

/-- One step of the strength/domination double loop
(`selection.py`, lines 115-122): state is `(strength_fits, dominating_inds)`. -/
def spea2_strength_step (inds : List (List ℚ)) (st : List ℕ × List (List ℕ))
    (p : ℕ × ℕ) : List ℕ × List (List ℕ) :=
  let vi := inds.getD p.1 []
  let vj := inds.getD p.2 []
  if dominates vi vj then
    (st.1.set p.1 (st.1.getD p.1 0 + 1), st.2.set p.2 (st.2.getD p.2 [] ++ [p.1]))
  else if dominates vj vi then
    (st.1.set p.2 (st.1.getD p.2 0 + 1), st.2.set p.1 (st.2.getD p.1 [] ++ [p.2]))
  else st

/-- `strength_fits` and `dominating_inds` after the double loop
(`selection.py`, lines 111-122). -/
def spea2_strengths (inds : List (List ℚ)) : List ℕ × List (List ℕ) :=
  (spea2_pairs inds.length).foldl (spea2_strength_step inds)
    (List.replicate inds.length 0, List.replicate inds.length [])

/-- The raw fitness `fits` (`selection.py`, lines 124-126):
`fits[i] = sum of strength_fits[j] over j in dominating_inds[i]` (an integer,
kept in `ℚ` because the density pass later adds rationals to it). -/
def spea2_raw_fits (inds : List (List ℚ)) : List ℚ :=
  (List.range inds.length).map fun i =>
    (((spea2_strengths inds).2.getD i []).map
      fun j => (((spea2_strengths inds).1.getD j 0 : ℕ) : ℚ)).sum

/-- The per-`i` distance array of the density pass
(`selection.py`, lines 133-140): entries `j ≤ i` stay `0.0`, entries `j > i`
hold the squared euclidean distance of the fitness vectors. -/
def spea2_distances (inds : List (List ℚ)) (fitness_len i : ℕ) : List ℚ :=
  (List.range inds.length).map fun j =>
    if i < j then
      ((List.range fitness_len).map fun idx =>
        ((inds.getD i []).getD idx 0 - (inds.getD j []).getD idx 0) *
          ((inds.getD i []).getD idx 0 - (inds.getD j []).getD idx 0)).sum
    else 0

/-- Exact comparison `√n - off < k` over the reals: with `m := off + k` it is
`n < m²` when `0 < m` and false otherwise (`√n ≥ 0`). -/
def sqrtOffLt (n : ℕ) (off k : ℤ) : Bool :=
  let m := off + k
  if m ≤ 0 then false else decide ((n : ℤ) < m * m)

/-- Bounds-checked read `array[j]` for the quickselect helpers (indices that
leave `[0, len)` cannot occur in a run that returns; `none` aborts). -/
def arrGetQ (arr : List ℚ) (j : ℤ) : Option ℚ :=
  if 0 ≤ j ∧ j < (arr.length : ℤ) then some (arr.getD j.toNat 0) else none

/-- `array[i], array[j] = array[j], array[i]` (identity if either index is
out of bounds, which cannot occur in a run that returns). -/
def arrSwap (arr : List ℚ) (i j : ℤ) : List ℚ :=
  match arrGetQ arr i, arrGetQ arr j with
  | some vi, some vj => (arr.set i.toNat vj).set j.toNat vi
  | _, _ => arr

/-- `while array[j] > x: j -= 1` (`selection.py`, lines 239-241),
returning the final `j`. -/
def scanDown (arr : List ℚ) (x : ℚ) : ℕ → ℤ → Option ℤ
  | 0, _ => none
  | fuel + 1, j =>
    match arrGetQ arr j with
    | none => none
    | some v => if x < v then scanDown arr x fuel (j - 1) else some j

/-- `while array[i] < x: i += 1` (`selection.py`, lines 242-243),
returning the final `i`. -/
def scanUp (arr : List ℚ) (x : ℚ) : ℕ → ℤ → Option ℤ
  | 0, _ => none
  | fuel + 1, i =>
    match arrGetQ arr i with
    | none => none
    | some v => if v < x then scanUp arr x fuel (i + 1) else some i

/-- The `while True` loop of `_partition` (`selection.py`, lines 238-248):
each round first decrements `j` and scans down, then increments `i` and scans
up, then swaps and continues, or returns `j`. -/
def partition_loop (x : ℚ) : ℕ → List ℚ → ℤ → ℤ → Option (List ℚ × ℤ)
  | 0, _, _, _ => none
  | fuel + 1, arr, i, j =>
    match scanDown arr x fuel (j - 1) with
    | none => none
    | some j' =>
      match scanUp arr x fuel (i + 1) with
      | none => none
      | some i' =>
        if i' < j' then partition_loop x fuel (arrSwap arr i' j') i' j'
        else some (arr, j')

/-- `_partition(array, begin, end)` (`selection.py`, lines 234-248): pivot
`x = array[begin]`, `i = begin - 1`, `j = end + 1`; the mutated array is
returned alongside the split point. -/
def spea2_partition (arr : List ℚ) (b e : ℕ) (fuel : ℕ) : Option (List ℚ × ℤ) :=
  match arrGetQ arr (b : ℤ) with
  | none => none
  | some x => partition_loop x fuel arr ((b : ℤ) - 1) ((e : ℤ) + 1)

/-- `_randomized_partition(array, begin, end)` (`selection.py`,
lines 228-231): `i = randint(begin, end)` drawn from the stream, pivot swap,
then `_partition`.  Also returns the advanced stream position. -/
def spea2_randomized_partition (arr : List ℚ) (b e : ℕ) (rand : ℕ → ℕ) (t : ℕ)
    (fuel : ℕ) : Option (List ℚ × ℤ × ℕ) :=
  let i := b + rand t % (e + 1 - b)
  let arr' := arrSwap arr (b : ℤ) (i : ℤ)
  match spea2_partition arr' b e fuel with
  | none => none
  | some (arr2, q) => some (arr2, q, t + 1)

/-- `_randomized_select(array, begin, end, i)` (`selection.py`,
lines 213-225), with `i = √n_base - off` represented by `off : ℤ`; `k = q -
begin + 1`; returns the selected value and the advanced stream position. -/
def spea2_randomized_select (n_base : ℕ) (rand : ℕ → ℕ) :
    ℕ → List ℚ → ℕ → ℕ → ℤ → ℕ → Option (ℚ × ℕ)
  | 0, _, _, _, _, _ => none
  | fuel + 1, arr, b, e, off, t =>
    if b = e then
      match arrGetQ arr (b : ℤ) with
      | none => none
      | some v => some (v, t)
    else
      match spea2_randomized_partition arr b e rand t fuel with
      | none => none
      | some (arr', q, t') =>
        if q < (b : ℤ) then none
        else
          let k : ℤ := q - (b : ℤ) + 1
          if sqrtOffLt n_base off k then
            spea2_randomized_select n_base rand fuel arr' b q.toNat off t'
          else
            spea2_randomized_select n_base rand fuel arr' (q.toNat + 1) e (off + k) t'

/-- The density pass (`selection.py`, lines 132-143): for each `i` in order,
build the distance array, select the `√N`-th smallest, and add the density
`1 / (kth_dist + 2)` to `fits[i]`; the random stream threads through. -/
def spea2_density_fold (inds : List (List ℚ)) (fitness_len : ℕ) (rand : ℕ → ℕ)
    (fuel : ℕ) : List ℕ → List ℚ → ℕ → Option (List ℚ × ℕ)
  | [], fits, t => some (fits, t)
  | i :: rest, fits, t =>
    match spea2_randomized_select inds.length rand fuel
        (spea2_distances inds fitness_len i) 0 (inds.length - 1) 0 t with
    | none => none
    | some (kth_dist, t') =>
      spea2_density_fold inds fitness_len rand fuel rest
        (fits.set i (fits.getD i 0 + 1 / (kth_dist + 2))) t'

/-- The full pairwise distance matrix of the truncation branch
(`selection.py`, lines 152-164): square over `chosen_indices`, `-1` on the
diagonal, symmetric squared distances elsewhere. -/
def spea2_trunc_distances (inds : List (List ℚ)) (fitness_len : ℕ)
    (cs : List ℕ) : List (List (WithTop ℚ)) :=
  (List.range cs.length).map fun i =>
    (List.range cs.length).map fun j =>
      if i = j then ((-1 : ℚ) : WithTop ℚ)
      else
        (((List.range fitness_len).map fun idx =>
          ((inds.getD (cs.getD i 0) []).getD idx 0 -
              (inds.getD (cs.getD j 0) []).getD idx 0) *
            ((inds.getD (cs.getD i 0) []).getD idx 0 -
              (inds.getD (cs.getD j 0) []).getD idx 0)).sum : ℚ)

/-- The inner `while idx > 0 and ...` insertion step of the `sorted_indices`
insert sort (`selection.py`, lines 167-173), inserting column `j` into the
row prefix. -/
def spea2_insert_idx (drow : List (WithTop ℚ)) (j : ℕ) :
    List ℕ → ℕ → List ℕ
  | row, 0 => row.set 0 j
  | row, idx + 1 =>
    if drow.getD j ⊤ < drow.getD (row.getD idx 0) ⊤ then
      spea2_insert_idx drow j (row.set (idx + 1) (row.getD idx 0)) idx
    else row.set (idx + 1) j

/-- One row of `sorted_indices` (`selection.py`, lines 167-173): starting
from all zeroes, insert `j = 1, …, n-1` in order. -/
def spea2_sorted_row (drow : List (WithTop ℚ)) (n : ℕ) : List ℕ :=
  (List.range n).foldl
    (fun row j => if j = 0 then row else spea2_insert_idx drow j row j)
    (List.replicate n 0)

/-- `sorted_indices` for the whole matrix. -/
def spea2_sorted_indices (dmat : List (List (WithTop ℚ))) (n : ℕ) :
    List (List ℕ) :=
  dmat.map fun drow => spea2_sorted_row drow n

/-- The inner `for j in range(1, size)` comparison scan of the minimal-
distance search (`selection.py`, lines 181-189): `true` iff the row of `i`
is strictly smaller than the row of `min_pos` at the first differing sorted
position. -/
def spea2_scan_j (dmat : List (List (WithTop ℚ))) (smat : List (List ℕ))
    (size i min_pos : ℕ) (j : ℕ) : Bool :=
  if j < size then
    let di := (dmat.getD i []).getD ((smat.getD i []).getD j 0) ⊤
    let dm := (dmat.getD min_pos []).getD ((smat.getD min_pos []).getD j 0) ⊤
    if di < dm then true
    else if dm < di then false
    else spea2_scan_j dmat smat size i min_pos (j + 1)
  else false
termination_by size - j

/-- `min_pos` after the `for i in range(1, inds_len)` search
(`selection.py`, lines 179-189). -/
def spea2_min_pos (dmat : List (List (WithTop ℚ))) (smat : List (List ℕ))
    (size n : ℕ) : ℕ :=
  (List.range n).foldl
    (fun mp i =>
      if i = 0 then mp
      else if spea2_scan_j dmat smat size i mp 1 then i else mp)
    0

/-- The `for j in range(1, size - 1)` bubble that moves `min_pos` towards the
end of a `sorted_indices` row (`selection.py`, lines 196-199). -/
def spea2_bubble (min_pos : ℕ) : ℕ → ℕ → List ℕ → List ℕ
  | j, stop, row =>
    if j < stop then
      spea2_bubble min_pos (j + 1) stop
        (if row.getD j 0 = min_pos then
          (row.set j (row.getD (j + 1) 0)).set (j + 1) min_pos
        else row)
    else row
termination_by j stop _ => stop - j

/-- The removal update (`selection.py`, lines 192-199): the row and column of
`min_pos` become `inf`, and every `sorted_indices` row is bubbled. -/
def spea2_update_after_remove (dmat : List (List (WithTop ℚ)))
    (smat : List (List ℕ)) (min_pos size : ℕ) :
    List (List (WithTop ℚ)) × List (List ℕ) :=
  ((List.range dmat.length).map fun i =>
      if i = min_pos then List.replicate (dmat.getD i []).length ⊤
      else (dmat.getD i []).set min_pos ⊤,
   (List.range smat.length).map fun i =>
      spea2_bubble min_pos 1 (size - 1) (smat.getD i []))

/-- `while size > pop_size` (`selection.py`, lines 177-203): repeatedly find
the minimal-distance position, update, and record it in `to_remove`. -/
def spea2_trunc_loop (pop_size n' : ℕ) :
    ℕ → List (List (WithTop ℚ)) → List (List ℕ) → List ℕ → List ℕ
  | size, dmat, smat, to_remove =>
    if pop_size < size then
      let mp := spea2_min_pos dmat smat size n'
      let st := spea2_update_after_remove dmat smat mp size
      spea2_trunc_loop pop_size n' (size - 1) st.1 st.2 (to_remove ++ [mp])
    else to_remove
termination_by size _ _ _ => size

/-- `for index in reversed(sorted(to_remove)): del chosen_indices[index]`
(`selection.py`, lines 205-206). -/
def spea2_delete_indices (cs : List ℕ) (to_remove : List ℕ) : List ℕ :=
  ((List.insertionSort (· ≤ ·) to_remove).reverse).foldl
    (fun l idx => l.eraseIdx idx) cs

/-- The lexicographic order used by Python's `next_indices.sort()` on
`(fits[i], i)` tuples. -/
def pairLe (p q : ℚ × ℕ) : Prop :=
  p.1 < q.1 ∨ (p.1 = q.1 ∧ p.2 ≤ q.2)

instance : DecidableRel pairLe := fun p q => by
  unfold pairLe
  infer_instance

/-- `spea2_selection(individuals, pop_size)` (`selection.py`, lines 96-208).
`none` models a raised `IndexError` (`individuals[0]` on an empty
population), an out-of-bounds access, or insufficient fuel for the
quickselect recursion; `some` is the returned list of selected individuals
(their fitness vectors). -/
def spea2_selection (inds : List (List ℚ)) (pop_size : ℕ) (rand : ℕ → ℕ)
    (fuel : ℕ) : Option (List (List ℚ)) :=
  match inds with
  | [] => none
  | ind0 :: _ =>
    let inds_len := inds.length
    let fitness_len := ind0.length
    let fits := spea2_raw_fits inds
    let chosen := (List.range inds_len).filter fun i => decide (fits.getD i 0 < 1)
    if chosen.length < pop_size then
      match spea2_density_fold inds fitness_len rand fuel
          (List.range inds_len) fits 0 with
      | none => none
      | some (fits', _) =>
        let next_indices := List.insertionSort pairLe
          (((List.range inds_len).filter fun i => ¬ i ∈ chosen).map
            fun i => (fits'.getD i 0, i))
        some ((chosen ++
          (next_indices.take (pop_size - chosen.length)).map Prod.snd).map
            fun i => inds.getD i [])
    else if pop_size < chosen.length then
      let dmat := spea2_trunc_distances inds fitness_len chosen
      let smat := spea2_sorted_indices dmat chosen.length
      let to_remove := spea2_trunc_loop pop_size chosen.length chosen.length
        dmat smat []
      some ((spea2_delete_indices chosen to_remove).map fun i => inds.getD i [])
    else some (chosen.map fun i => inds.getD i [])

lemma map_getD_range {α : Type} (l : List α) (d : α) :
    (List.range l.length).map (fun i => l.getD i d) = l := by
  induction l with
  | nil => rfl
  | cons a l ih =>
    rw [List.length_cons, List.range_succ_eq_map, List.map_cons, List.map_map]
    exact congrArg (List.cons a) ih

lemma rest_filter_eq (N : ℕ) (p : ℕ → Bool) :
    ((List.range N).filter fun i => ¬ i ∈ (List.range N).filter p) =
      (List.range N).filter (fun i => !(p i)) := by
  apply List.filter_congr
  intro i hi
  simp [List.mem_filter, hi]

lemma chosen_rest_perm (N : ℕ) (p : ℕ → Bool) :
    List.Perm
      ((List.range N).filter p ++
        ((List.range N).filter fun i => ¬ i ∈ (List.range N).filter p))
      (List.range N) := by
  rw [rest_filter_eq]
  exact List.filter_append_perm p (List.range N)

lemma rest_length (N : ℕ) (p : ℕ → Bool) :
    (((List.range N).filter fun i => ¬ i ∈ (List.range N).filter p)).length =
      N - ((List.range N).filter p).length := by
  have h := (chosen_rest_perm N p).length_eq
  rw [List.length_append, List.length_range] at h
  have hle : ((List.range N).filter p).length ≤ N := by
    have := (List.filter_sublist (p := p) (List.range N)).length_le
    rwa [List.length_range] at this
  omega

lemma spea2_density_branch_perm (N : ℕ) (p : ℕ → Bool) (f : ℕ → ℚ) :
    List.Perm
      ((List.range N).filter p ++
        ((List.insertionSort pairLe
          (((List.range N).filter fun i => ¬ i ∈ (List.range N).filter p).map
            fun i => (f i, i))).take
              (N - ((List.range N).filter p).length)).map Prod.snd)
      (List.range N) := by
  have hlen : (List.insertionSort pairLe
      (((List.range N).filter fun i => ¬ i ∈ (List.range N).filter p).map
        fun i => (f i, i))).length =
      N - ((List.range N).filter p).length := by
    rw [List.length_insertionSort, List.length_map, rest_length]
  rw [List.take_of_length_le (le_of_eq hlen)]
  refine List.Perm.trans ?_ (chosen_rest_perm N p)
  apply List.Perm.append_left
  have hsort := List.perm_insertionSort pairLe
    (((List.range N).filter fun i => ¬ i ∈ (List.range N).filter p).map
      fun i => (f i, i))
  have hmap := hsort.map Prod.snd
  rw [List.map_map] at hmap
  have : (((List.range N).filter fun i => ¬ i ∈ (List.range N).filter p).map
      (Prod.snd ∘ fun i => (f i, i))) =
      ((List.range N).filter fun i => ¬ i ∈ (List.range N).filter p) := by
    rw [show (Prod.snd ∘ fun i => ((f i, i) : ℚ × ℕ)) = id from rfl, List.map_id]
  rwa [this] at hmap

/-- C5: whenever `spea2_selection` on a population of `N` individuals with
target size `N` returns, the returned list is a permutation of the input
population: all `N` individuals are returned, each exactly once, none
dropped (non-dominated ones first, the rest sorted by strength fitness). -/
theorem spea2_selection_returns_all (inds res : List (List ℚ)) (rand : ℕ → ℕ)
    (fuel : ℕ) (h : spea2_selection inds inds.length rand fuel = some res) :
    List.Perm res inds := by
  match inds with
  | [] => exact absurd h (by rw [spea2_selection]; simp)
  | ind0 :: rest =>
    rw [spea2_selection] at h
    simp only [] at h
    set N := (ind0 :: rest).length with hN
    set fits := spea2_raw_fits (ind0 :: rest) with hfits
    set p : ℕ → Bool := fun i => decide (fits.getD i 0 < 1) with hp
    set chosen := (List.range N).filter p with hchosen
    have hchlen : chosen.length ≤ N := by
      have := (List.filter_sublist (p := p) (List.range N)).length_le
      rwa [List.length_range] at this
    by_cases hlt : chosen.length < N
    · rw [if_pos hlt] at h
      match hd : spea2_density_fold (ind0 :: rest) ind0.length rand fuel
          (List.range N) fits 0 with
      | none =>
        rw [hd] at h
        exact absurd h (by simp)
      | some pr =>
        rw [hd] at h
        simp only [Option.some.injEq] at h
        have hperm := spea2_density_branch_perm N p (fun i => pr.1.getD i 0)
        rw [← hchosen] at hperm
        have hthis := hperm.map (fun i => (ind0 :: rest).getD i [])
        have hmr := map_getD_range (ind0 :: rest) ([] : List ℚ)
        rw [← hN] at hmr
        rw [hmr] at hthis
        rw [← h]
        exact hthis
    · rw [if_neg hlt] at h
      have heq : chosen.length = N := by omega
      have hch : chosen = List.range N := by
        apply (List.filter_sublist (List.range N)).eq_of_length
        rw [heq, List.length_range]
      rw [if_neg (by omega)] at h
      simp only [Option.some.injEq] at h
      have hmr := map_getD_range (ind0 :: rest) ([] : List ℚ)
      rw [← hN] at hmr
      rw [← h, hch, hmr]

/-- Witness for C5: two mutually non-dominated individuals with target size 2
are both returned, in order. -/
theorem spea2_selection_returns_all_witness :
    spea2_selection [[0, 1], [1, 0]] ([[0, 1], [1, 0]] : List (List ℚ)).length
      (fun _ => 0) 1 = some [[0, 1], [1, 0]] ∧
    List.Perm ([[0, 1], [1, 0]] : List (List ℚ)) [[0, 1], [1, 0]] :=
  ⟨by decide, spea2_selection_returns_all [[0, 1], [1, 0]] [[0, 1], [1, 0]]
    (fun _ => 0) 1 (by decide)⟩

end Fedot
